import Mathlib

/-!
Shallow embedding of the `Qp` crate (`src/BPminres/crates/Qp/src/lib.rs`):
p-adic values `numerator * p^valuation` with canonical-form arithmetic and a
binary codec.

Modelling conventions:
* `rug::Integer` (arbitrary precision) is `Int`.
* the `i16` valuation is modelled as `Int`; the 16-bit range appears as an
  explicit hypothesis exactly where the width is observable (the codec's
  2-byte little-endian field).
* bytes are `Nat` (every byte the encoder emits is `< 256` by construction);
  byte streams are `List Nat`.
* Rust panics and recoverable IO failures are modelled as `Option`.
* `rug`'s `%` on `Integer` is truncated remainder (sign of the dividend),
  embedded as `Int.tmod`; `/` on an exact multiple agrees with `Int.ediv`,
  which is Lean's `/`.
-/

/-- The value representation `Qp`: the number denoted is
`numerator * p^valuation`. -/
structure Qp where
  numerator : Int
  valuation : Int
deriving DecidableEq, Repr

namespace QpOp

/-- `QpOp::power_p`: `p^i` computed by repeated multiplication starting
from 1. -/
def power_p (p : Int) : Nat → Int
  | 0 => 1
  | i + 1 => power_p p i * p

/-- The `while (numerator % p).is_zero()` loop of `QpOp::simplify`, with an
explicit iteration bound `f`.  The source loop terminates because each
division strictly shrinks the magnitude of a nonzero numerator when `p ≥ 2`,
so any `f ≥ |num|` is enough fuel; the guard `num % p = 0` is the source's
`(&x.numerator % &p).is_zero()` (a remainder is zero under every division
convention exactly when `p ∣ num`). -/
def simplifyLoop (p : Int) : Nat → Int → Int → Qp
  | 0, num, val => ⟨num, val⟩
  | f + 1, num, val =>
      if num % p = 0 then simplifyLoop p f (num / p) (val + 1)
      else ⟨num, val⟩

/-- `QpOp::simplify`: zero numerators collapse to the canonical zero
`(0, 0)`; otherwise factors of `p` are moved from the numerator into the
valuation. -/
def simplify (p : Int) (x : Qp) : Qp :=
  if x.numerator = 0 then ⟨0, 0⟩
  else simplifyLoop p x.numerator.natAbs x.numerator x.valuation

/-- `QpOp::add`: align to the smaller valuation, rescale the other
numerator by `p^d`, and normalize only in the equal-valuation branch. -/
def add (p : Int) (x y : Qp) : Qp :=
  if x.valuation < y.valuation then
    ⟨x.numerator + y.numerator * power_p p (y.valuation - x.valuation).toNat,
      x.valuation⟩
  else if y.valuation < x.valuation then
    ⟨y.numerator + x.numerator * power_p p (x.valuation - y.valuation).toNat,
      y.valuation⟩
  else
    simplify p ⟨x.numerator + y.numerator, x.valuation⟩

/-- `QpOp::zero`: the canonical zero. -/
def zero : Qp := ⟨0, 0⟩

/-- `QpOp::is_zero`: true iff the numerator is exactly zero. -/
def is_zero (x : Qp) : Bool := x.numerator == 0

/-- `QpOp::minus`: negate the numerator, keep the valuation. -/
def minus (x : Qp) : Qp := ⟨-x.numerator, x.valuation⟩

/-- `QpOp::multiply`: multiply numerators, sum valuations. -/
def multiply (x y : Qp) : Qp :=
  ⟨x.numerator * y.numerator, x.valuation + y.valuation⟩

/-- `QpOp::unit`: build a valuation-0 value from an integer and normalize. -/
def unit (p : Int) (n : Int) : Qp := simplify p ⟨n, 0⟩

/-- `QpOp::construct`: raw constructor, no normalization. -/
def construct (num val : Int) : Qp := ⟨num, val⟩

/-- `QpOp::int_part`: panics (`none`) on negative valuation; otherwise
reduces `numerator * p^valuation` by `rug`'s truncated `%` modulo `p^40`,
folds a negative residue into the positive range by adding `p^40`, and
returns the value of `to_u64_wrapping`, i.e. the residue modulo `2^64`. -/
def int_part (p : Int) (x : Qp) : Option Nat :=
  if x.valuation < 0 then none
  else
    let t64 : Int := p ^ 40
    let ip0 : Int := (x.numerator * power_p p x.valuation.toNat).tmod t64
    let ip1 : Int := if ip0 < 0 then ip0 + t64 else ip0
    some (ip1 % 2 ^ 64).toNat

/-- The `while !n.is_zero()` digit loop of `QpOp::save_to_vec`, with an
explicit iteration bound `f` (any `f ≥ n` is enough fuel since `n / 256`
strictly decreases): emit `n % 256`, continue with `n / 256`. -/
def digitsLoop : Nat → Nat → List Nat
  | 0, _ => []
  | f + 1, n => if n = 0 then [] else n % 256 :: digitsLoop f (n / 256)

/-- `QpOp::save_to_vec`: zero encodes as the single byte `0`; a nonzero
integer encodes as a sign byte (`1` positive, `2` negative) followed by the
base-256 digits of the magnitude, least-significant first. -/
def saveToVec (x : Int) : List Nat :=
  if x = 0 then [0]
  else (if 0 < x then 1 else 2) :: digitsLoop x.natAbs x.natAbs

/-- `QpOp::load_from_vec`: an empty buffer decodes to zero; otherwise the
trailing bytes are summed as base-256 digits (the source's `res += vl * b;
vl *= 256` accumulation) and the leading byte `2` selects negation. -/
def loadFromVec (buf : List Nat) : Int :=
  match buf with
  | [] => 0
  | b :: rest =>
      let res : Int := Nat.ofDigits (256 : Int) rest
      if b = 2 then -res else res

/-- `i16::to_le_bytes` on a value `v` in i16 range: the two's-complement
bit pattern `v mod 2^16`, split into two bytes, low byte first. -/
def toLeBytes16 (v : Int) : List Nat :=
  [(v % 65536).toNat % 256, (v % 65536).toNat / 256]

/-- `i16::from_le_bytes` on two bytes: reassemble the 16-bit word and
interpret it in two's complement. -/
def fromLeBytes16 (b0 b1 : Nat) : Int :=
  if b0 + 256 * b1 < 32768 then ((b0 + 256 * b1 : Nat) : Int)
  else ((b0 + 256 * b1 : Nat) : Int) - 65536

/-- `QpOp::save`: valuation (2 bytes LE), then the numerator encoding's
byte length (2 bytes LE, must fit `i16`, else the write fails), then the
numerator bytes. -/
def save (x : Qp) : Option (List Nat) :=
  let nb := saveToVec x.numerator
  if nb.length ≤ 32767 then
    some (toLeBytes16 x.valuation ++ toLeBytes16 (nb.length : Int) ++ nb)
  else none

/-- `QpOp::load`: read 2 valuation bytes and 2 length bytes; a negative
length is rejected (`usize::try_from`), and `read_exact` fails (`none`)
when fewer than `length` bytes remain. -/
def load (bytes : List Nat) : Option Qp :=
  match bytes with
  | b0 :: b1 :: c0 :: c1 :: rest =>
      let valuation := fromLeBytes16 b0 b1
      let len := fromLeBytes16 c0 c1
      if len < 0 then none
      else if rest.length < len.toNat then none
      else some ⟨loadFromVec (rest.take len.toNat), valuation⟩
  | _ => none

/-- Canonical form as the spec states it: either the canonical zero
`(0, 0)`, or a numerator not divisible by `p`. -/
def canonical (p : Int) (x : Qp) : Prop :=
  (x.numerator = 0 ∧ x.valuation = 0) ∨ ¬ p ∣ x.numerator

instance (p : Int) (x : Qp) : Decidable (canonical p x) := by
  unfold canonical; infer_instance

end QpOp

namespace QpOp

/-! ### Helper lemmas about the embedded operations -/

theorem power_p_eq (p : Int) (n : Nat) : power_p p n = p ^ n := by
  induction n with
  | zero => rfl
  | succ n ih => rw [power_p, ih, pow_succ]

theorem digitsLoop_eq_digits : ∀ (f n : Nat), n ≤ f →
    digitsLoop f n = Nat.digits 256 n := by
  intro f
  induction f with
  | zero =>
      intro n h
      have : n = 0 := by omega
      subst this
      simp [digitsLoop]
  | succ f ih =>
      intro n h
      by_cases hn : n = 0
      · subst hn; simp [digitsLoop]
      · have hlt : n / 256 < n := Nat.div_lt_self (Nat.pos_of_ne_zero hn) (by omega)
        rw [digitsLoop, if_neg hn, ih (n / 256) (by omega),
          Nat.digits_def' (by omega : 1 < 256) (Nat.pos_of_ne_zero hn)]

theorem loadFromVec_saveToVec (x : Int) : loadFromVec (saveToVec x) = x := by
  by_cases hx : x = 0
  · subst hx; rfl
  · have hofd : Nat.ofDigits (256 : Int) (Nat.digits 256 x.natAbs) = (x.natAbs : Int) := by
      have h := Nat.ofDigits_digits 256 x.natAbs
      exact_mod_cast h
    have habs := Int.natAbs_eq x
    rw [saveToVec, if_neg hx, digitsLoop_eq_digits _ _ le_rfl]
    by_cases hpos : 0 < x
    · rw [if_pos hpos]
      show (if (1 : Nat) = 2 then -(Nat.ofDigits (256 : Int) (Nat.digits 256 x.natAbs))
        else Nat.ofDigits (256 : Int) (Nat.digits 256 x.natAbs)) = x
      rw [if_neg (by omega), hofd]
      omega
    · rw [if_neg hpos]
      show (if (2 : Nat) = 2 then -(Nat.ofDigits (256 : Int) (Nat.digits 256 x.natAbs))
        else Nat.ofDigits (256 : Int) (Nat.digits 256 x.natAbs)) = x
      rw [if_pos rfl, hofd]
      omega

theorem fromLeBytes16_toLeBytes16 (v : Int) (h1 : -32768 ≤ v) (h2 : v < 32768) :
    fromLeBytes16 ((v % 65536).toNat % 256) ((v % 65536).toNat / 256) = v := by
  unfold fromLeBytes16
  split <;> omega

end QpOp

namespace QpOp

theorem simplifyLoop_id (p : Int) (f : Nat) (num val : Int) (h : num % p ≠ 0) :
    simplifyLoop p f num val = ⟨num, val⟩ := by
  cases f <;> simp [simplifyLoop, h]

theorem simplifyLoop_not_dvd (p : Int) (hp : 2 ≤ p) :
    ∀ (f : Nat) (num val : Int), num ≠ 0 → num.natAbs ≤ f →
      (simplifyLoop p f num val).numerator ≠ 0 ∧
      ¬ p ∣ (simplifyLoop p f num val).numerator := by
  intro f
  induction f with
  | zero =>
      intro num val h0 hb
      omega
  | succ f ih =>
      intro num val h0 hb
      by_cases hdvd : num % p = 0
      · have hdvd' : p ∣ num := Int.dvd_of_emod_eq_zero hdvd
        obtain ⟨k, hk⟩ := hdvd'
        have hp0 : p ≠ 0 := by omega
        have hdiv : num / p = k := by rw [hk, Int.mul_ediv_cancel_left _ hp0]
        have hk0 : k ≠ 0 := by rintro rfl; rw [Int.mul_zero] at hk; exact h0 hk
        have hlt : k.natAbs < num.natAbs := by
          have h2 : 2 ≤ p.natAbs := by omega
          have hmul := Nat.mul_le_mul_right k.natAbs h2
          have hk' : num.natAbs = p.natAbs * k.natAbs := by rw [hk, Int.natAbs_mul]
          have hkpos : 0 < k.natAbs := Int.natAbs_pos.mpr hk0
          omega
        rw [simplifyLoop, if_pos hdvd, hdiv]
        exact ih k (val + 1) hk0 (by omega)
      · rw [simplifyLoop, if_neg hdvd]
        exact ⟨h0, fun hcon => hdvd (Int.emod_eq_zero_of_dvd hcon)⟩

theorem simplify_zero_num (p v : Int) : simplify p ⟨0, v⟩ = ⟨0, 0⟩ := by
  rw [simplify, if_pos rfl]

theorem simplify_spec (p : Int) (hp : 2 ≤ p) (x : Qp) (hx : x.numerator ≠ 0) :
    (simplify p x).numerator ≠ 0 ∧ ¬ p ∣ (simplify p x).numerator := by
  rw [simplify, if_neg hx]
  exact simplifyLoop_not_dvd p hp _ _ _ hx le_rfl

theorem tmod_fold_eq_emod (a b : Int) (hb : 0 < b) :
    (if a.tmod b < 0 then a.tmod b + b else a.tmod b) = a % b := by
  have hmod : a.tmod b % b = a % b := by
    conv_rhs => rw [← Int.tdiv_add_tmod a b]
    rw [Int.add_comm, Int.add_mul_emod_self_left]
  have hup : a.tmod b < b := Int.tmod_lt_of_pos a hb
  have hlow : -b < a.tmod b := by
    rcases le_or_lt 0 a with ha | ha
    · have := Int.tmod_nonneg b ha
      omega
    · have hneg : (-a).tmod b = -(a.tmod b) := by
        rw [Int.tmod_def, Int.tmod_def, Int.neg_tdiv]
        ring
      have := Int.tmod_lt_of_pos (-a) hb
      omega
  split
  · calc a.tmod b + b
        = (a.tmod b + b) % b := (Int.emod_eq_of_lt (by omega) (by omega)).symm
      _ = (a.tmod b + b * 1) % b := by ring_nf
      _ = a.tmod b % b := by rw [Int.add_mul_emod_self_left]
      _ = a % b := hmod
  · calc a.tmod b
        = a.tmod b % b := (Int.emod_eq_of_lt (by omega) (by omega)).symm
      _ = a % b := hmod

theorem save_eq_some (x : Qp) (bs : List Nat) (hs : save x = some bs) :
    (saveToVec x.numerator).length ≤ 32767 ∧
    bs = toLeBytes16 x.valuation ++ toLeBytes16 ((saveToVec x.numerator).length : Int) ++
      saveToVec x.numerator := by
  rw [save] at hs
  by_cases hlen : (saveToVec x.numerator).length ≤ 32767
  · rw [if_pos hlen] at hs
    exact ⟨hlen, (Option.some.inj hs).symm⟩
  · rw [if_neg hlen] at hs
    exact absurd hs (by simp)

end QpOp

namespace QpOp

/-! ### Claim theorems -/

/-- C1: codec round-trip.  For every value `x` whose valuation is in the
`i16` range (the type invariant of the source field `valuation: i16`) and
for which `save` succeeds (the numerator encoding fits the 16-bit length
field), `load` applied to the bytes produced by `save` returns a value
equal to `x` field-for-field. -/
theorem save_load_roundtrip (x : Qp) (h1 : -32768 ≤ x.valuation)
    (h2 : x.valuation < 32768) (bs : List Nat) (hs : save x = some bs) :
    load bs = some x := by
  obtain ⟨hlen, rfl⟩ := save_eq_some x bs hs
  have hval := fromLeBytes16_toLeBytes16 x.valuation h1 h2
  have hlenrt := fromLeBytes16_toLeBytes16 ((saveToVec x.numerator).length : Int)
    (by omega) (by omega)
  simp only [toLeBytes16, List.cons_append, List.nil_append, load]
  rw [hval, hlenrt]
  rw [if_neg (by omega)]
  have htN : ((saveToVec x.numerator).length : Int).toNat =
      (saveToVec x.numerator).length := by omega
  rw [htN, if_neg (by omega), List.take_length, loadFromVec_saveToVec]

theorem save_load_roundtrip_witness :
    load [5, 0, 3, 0, 2, 44, 1] = some ⟨-300, 5⟩ :=
  save_load_roundtrip ⟨-300, 5⟩ (by decide) (by decide) [5, 0, 3, 0, 2, 44, 1]
    (by decide)

/-- C2 counterexample: the canonical zero `(0,0)` and the canonical value
`(1,1)` have different valuations, yet `add` (prime 3) returns `(3,0)`,
whose numerator is nonzero and divisible by 3 — not a canonical value. -/
theorem add_ne_val_canonical_cex :
    canonical 3 ⟨0, 0⟩ ∧ canonical 3 ⟨1, 1⟩ ∧
    (Qp.mk 0 0).valuation ≠ (Qp.mk 1 1).valuation ∧
    add 3 ⟨0, 0⟩ ⟨1, 1⟩ = ⟨3, 0⟩ ∧
    ¬ canonical 3 (add 3 ⟨0, 0⟩ ⟨1, 1⟩) := by decide

/-- C2 (amended): for canonical nonzero inputs (numerator nonzero and not
divisible by `p`) with different valuations, `add` returns a value whose
numerator is nonzero and not divisible by `p` — already canonical, with no
normalization call in these branches. -/
theorem add_ne_val_canonical (p : Int) (x y : Qp)
    (hx0 : x.numerator ≠ 0) (hy0 : y.numerator ≠ 0)
    (hxd : ¬ p ∣ x.numerator) (hyd : ¬ p ∣ y.numerator)
    (hne : x.valuation ≠ y.valuation) :
    (add p x y).numerator ≠ 0 ∧ ¬ p ∣ (add p x y).numerator := by
  have key : ∀ (a b : Int) (d : Nat), a ≠ 0 → ¬ p ∣ a → 1 ≤ d →
      a + b * power_p p d ≠ 0 ∧ ¬ p ∣ (a + b * power_p p d) := by
    intro a b d ha had hd
    have hpdvd : p ∣ b * power_p p d := by
      rw [power_p_eq]
      exact Dvd.dvd.mul_left (dvd_pow_self p (by omega)) b
    constructor
    · intro hcon
      apply had
      have hab : a = -(b * power_p p d) := by omega
      rw [hab]
      exact (dvd_neg).mpr hpdvd
    · intro hcon
      apply had
      have hsub := dvd_sub hcon hpdvd
      simpa using hsub
  rcases lt_or_gt_of_ne hne with h | h
  · rw [add, if_pos h]
    exact key x.numerator y.numerator _ hx0 hxd (by omega)
  · rw [add, if_neg (by omega), if_pos h]
    exact key y.numerator x.numerator _ hy0 hyd (by omega)

theorem add_ne_val_canonical_witness :
    (add 3 ⟨1, 0⟩ ⟨2, 1⟩).numerator ≠ 0 ∧
    ¬ (3 : Int) ∣ (add 3 ⟨1, 0⟩ ⟨2, 1⟩).numerator :=
  add_ne_val_canonical 3 ⟨1, 0⟩ ⟨2, 1⟩ (by decide) (by decide) (by decide)
    (by decide) (by decide)

/-- C3 counterexample: `(1,1)` is canonical, but `add((1,1), zero())`
returns `(3,0)`, which is not field-for-field equal to `(1,1)`. -/
theorem add_zero_cex :
    canonical 3 ⟨1, 1⟩ ∧ add 3 ⟨1, 1⟩ zero = ⟨3, 0⟩ ∧
    add 3 ⟨1, 1⟩ zero ≠ ⟨1, 1⟩ := by decide

/-- C3 (amended): for every canonical value `x` with `x.valuation ≤ 0`,
`add(x, zero())` equals `x` field-for-field (for canonical `x` with
positive valuation the result is the rescaled pair
`(numerator * p^valuation, 0)` instead). -/
theorem add_zero_eq_of_val_nonpos (p : Int) (x : Qp) (hc : canonical p x)
    (hv : x.valuation ≤ 0) : add p x zero = x := by
  obtain ⟨xn, xv⟩ := x
  simp only [canonical] at hc
  dsimp only at hv hc
  rcases lt_or_eq_of_le hv with hlt | heq
  · show add p ⟨xn, xv⟩ ⟨0, 0⟩ = ⟨xn, xv⟩
    rw [add, if_pos (by exact hlt)]
    simp
  · subst heq
    show add p ⟨xn, 0⟩ ⟨0, 0⟩ = ⟨xn, 0⟩
    rw [add, if_neg (by dsimp only; omega), if_neg (by dsimp only; omega)]
    rcases hc with ⟨hn0, _⟩ | hnd
    · subst hn0
      show simplify p ⟨0 + 0, 0⟩ = ⟨0, 0⟩
      rw [add_zero]
      exact simplify_zero_num p 0
    · have hn0 : xn ≠ 0 := fun hz => hnd (hz ▸ dvd_zero p)
      show simplify p ⟨xn + 0, 0⟩ = ⟨xn, 0⟩
      rw [add_zero, simplify, if_neg (by exact hn0),
        simplifyLoop_id p _ xn 0 (fun hz => hnd (Int.dvd_of_emod_eq_zero hz))]

theorem add_zero_eq_of_val_nonpos_witness : add 3 ⟨2, -1⟩ zero = ⟨2, -1⟩ :=
  add_zero_eq_of_val_nonpos 3 ⟨2, -1⟩ (by decide) (by decide)

/-- C4: for prime `p` and canonical nonzero `x, y` (numerators nonzero and
not divisible by `p`), `multiply(x, y)` has a nonzero numerator not
divisible by `p` — already canonical, with no normalization step. -/
theorem multiply_canonical (p : Int) (hp : Prime p) (x y : Qp)
    (hx0 : x.numerator ≠ 0) (hy0 : y.numerator ≠ 0)
    (hxd : ¬ p ∣ x.numerator) (hyd : ¬ p ∣ y.numerator) :
    (multiply x y).numerator ≠ 0 ∧ ¬ p ∣ (multiply x y).numerator := by
  refine ⟨mul_ne_zero hx0 hy0, fun hcon => ?_⟩
  rcases hp.dvd_mul.mp hcon with h | h
  exacts [hxd h, hyd h]

theorem multiply_canonical_witness :
    (multiply ⟨2, 1⟩ ⟨4, -1⟩).numerator ≠ 0 ∧
    ¬ (3 : Int) ∣ (multiply ⟨2, 1⟩ ⟨4, -1⟩).numerator :=
  multiply_canonical 3 Int.prime_three ⟨2, 1⟩ ⟨4, -1⟩ (by decide) (by decide)
    (by decide) (by decide)

/-- C5: normalization idempotence: for `p ≥ 2`, applying `simplify` twice
gives the same result as applying it once. -/
theorem simplify_idempotent (p : Int) (x : Qp) (hp : 2 ≤ p) :
    simplify p (simplify p x) = simplify p x := by
  by_cases hx : x.numerator = 0
  · have h0 : simplify p x = ⟨0, 0⟩ := by rw [simplify, if_pos hx]
    rw [h0]
    exact simplify_zero_num p 0
  · obtain ⟨h1, h2⟩ := simplify_spec p hp x hx
    set y := simplify p x with hy
    rw [simplify, if_neg h1,
      simplifyLoop_id p _ _ _ (fun hz => h2 (Int.dvd_of_emod_eq_zero hz))]

theorem simplify_idempotent_witness :
    simplify 3 (simplify 3 ⟨18, 0⟩) = simplify 3 ⟨18, 0⟩ :=
  simplify_idempotent 3 ⟨18, 0⟩ (by decide)

/-- C6: canonical-zero convention: `simplify` applied to any value with
zero numerator yields `(0, 0)` regardless of the input valuation. -/
theorem simplify_zero_numerator (p v : Int) : simplify p ⟨0, v⟩ = ⟨0, 0⟩ :=
  simplify_zero_num p v

/-- C7: `int_part` contract: with a negative valuation it fails fatally
(no numeric result, modelled `none`); with a non-negative valuation (and
`p > 0`) it returns the low 64 bits of the residue
`(numerator * p^valuation) mod p^40`, where the source's truncated `%`
followed by folding a negative remainder into the positive range is
exactly the mathematical (euclidean) `mod`. -/
theorem int_part_spec (p : Int) (x : Qp) :
    (x.valuation < 0 → int_part p x = none) ∧
    (0 ≤ x.valuation → 0 < p →
      int_part p x =
        some ((x.numerator * p ^ x.valuation.toNat % p ^ 40 % 2 ^ 64).toNat)) := by
  constructor
  · intro h
    rw [int_part, if_pos h]
  · intro h hp
    have hb : (0 : Int) < p ^ 40 := pow_pos hp 40
    simp only [int_part, if_neg (not_lt.mpr h)]
    rw [power_p_eq, tmod_fold_eq_emod _ _ hb]

theorem int_part_spec_witness :
    int_part 3 ⟨5, -1⟩ = none ∧
    int_part 3 ⟨-2, 1⟩ =
      some (((-2 : Int) * 3 ^ (1 : Int).toNat % 3 ^ 40 % 2 ^ 64).toNat) :=
  ⟨(int_part_spec 3 ⟨5, -1⟩).1 (by decide),
   (int_part_spec 3 ⟨-2, 1⟩).2 (by decide) (by decide)⟩

/-- C8: numerator encoding format: zero encodes as the single byte `0`; a
nonzero `x` encodes as a sign byte (`1` positive, `2` negative) followed by
the base-256 digits of `|x|`, least-significant first, with no trailing
zero byte; in particular `-300` encodes to `[2, 44, 1]` (sign `0x02`,
digits `0x2C 0x01`) and those 3 bytes decode back to `-300`. -/
theorem saveToVec_format (x : Int) (hx : x ≠ 0) :
    saveToVec 0 = [0] ∧
    saveToVec x = (if 0 < x then 1 else 2) :: Nat.digits 256 x.natAbs ∧
    (Nat.digits 256 x.natAbs).getLast? ≠ some 0 ∧
    saveToVec (-300) = [2, 44, 1] ∧
    loadFromVec [2, 44, 1] = -300 := by
  refine ⟨rfl, ?_, ?_, by decide, by decide⟩
  · rw [saveToVec, if_neg hx, digitsLoop_eq_digits _ _ le_rfl]
  · have hne : x.natAbs ≠ 0 := Int.natAbs_ne_zero.mpr hx
    have hnil : Nat.digits 256 x.natAbs ≠ [] :=
      Nat.digits_ne_nil_iff_ne_zero.mpr hne
    rw [List.getLast?_eq_getLast _ hnil]
    have h := Nat.getLast_digit_ne_zero 256 hne
    simpa using h

theorem saveToVec_format_witness :
    saveToVec 0 = [0] ∧
    saveToVec (-300) =
      (if (0 : Int) < -300 then 1 else 2) :: Nat.digits 256 (Int.natAbs (-300)) ∧
    (Nat.digits 256 (Int.natAbs (-300))).getLast? ≠ some 0 ∧
    saveToVec (-300) = [2, 44, 1] ∧
    loadFromVec [2, 44, 1] = -300 :=
  saveToVec_format (-300) (by decide)

/-- C9: additive inverse: for every value `x` and `p ≥ 2`,
`is_zero(add(x, minus(x)))` holds — the sum has numerator exactly zero. -/
theorem add_minus_is_zero (p : Int) (_hp : 2 ≤ p) (x : Qp) :
    is_zero (add p x (minus x)) = true := by
  obtain ⟨xn, xv⟩ := x
  show is_zero (add p ⟨xn, xv⟩ ⟨-xn, xv⟩) = true
  rw [add, if_neg (by simp), if_neg (by simp)]
  show is_zero (simplify p ⟨xn + -xn, xv⟩) = true
  rw [show xn + -xn = 0 by omega, simplify_zero_num]
  rfl

theorem add_minus_is_zero_witness :
    is_zero (add 3 ⟨7, 2⟩ (minus ⟨7, 2⟩)) = true :=
  add_minus_is_zero 3 (by decide) ⟨7, 2⟩

/-- C10: commutativity of addition: for all values `x, y` (canonical or
not), `add(x, y)` and `add(y, x)` are field-for-field equal. -/
theorem add_comm_all (p : Int) (x y : Qp) : add p x y = add p y x := by
  obtain ⟨xn, xv⟩ := x
  obtain ⟨yn, yv⟩ := y
  rw [add, add]
  rcases lt_trichotomy xv yv with h | h | h
  · rw [if_pos (by exact h), if_neg (by simp; omega), if_pos (by exact h)]
  · rw [if_neg (by simp; omega), if_neg (by simp; omega), if_neg (by simp; omega),
      if_neg (by simp; omega)]
    show simplify p ⟨xn + yn, xv⟩ = simplify p ⟨yn + xn, yv⟩
    rw [Int.add_comm, h]
  · rw [if_neg (by simp; omega), if_pos (by exact h), if_pos (by exact h)]

end QpOp
